import Mathlib

set_option maxRecDepth 8000

deriving instance DecidableEq for Except

/-!
Verification of the commit–reveal poker coordinator (`src/app.py`).

This file shallowly embeds the core of the program: the SplitMix64 PRNG
(`SplitMix64.next_u64` / `SplitMix64.randbelow`), the Fisher–Yates
permutation engine (`deterministic_shuffle`), the canonical deck
(`make_deck`), the master-seed deriver (`compute_master_seed`), the deal
engine (`deal_hole`, `deal_community`, `reset_hand`) and the per-room
websocket message handler (`ws`), modelled as a pure step function
`handleEvent` on a `Room` state together with an inductive reachability
predicate.

Conventions of the embedding:
* Python machine integers are `Nat` with explicit reduction modulo `2 ^ 64`
  where the source masks with `MASK64`.
* SHA-256 itself is a call into Python's `hashlib` library, external to the
  repository; the development is parametrised by the digest function
  `sha : String → List Nat` (UTF-8 string to its 32 digest bytes).  The
  source's `.hexdigest()` / `.hex()` encoding is embedded concretely as
  `bytesToHex`.
* The unbounded rejection-sampling loop of `randbelow` and hence the
  shuffle take an explicit `fuel` bound; running out of fuel is modelled as
  the distinguished error `PyErr.outOfFuel` (the source would keep
  looping).
* A raised-and-uncaught Python exception is `Outcome.crashed`; the
  `except Exception` handler at the end of `ws` (which pops the offending
  player) is part of `handleEvent`.
* Python truthiness of an optional string (`None` and `""` are falsy) is
  `(o.getD "") ≠ ""`, written out inline.
* The insertion-ordered `Dict[str, Player]` of a room is a `List Player`
  in join order, keyed by the `pid` field.
-/

/-! ### Deterministic PRNG: SplitMix64 (`src/app.py` lines 20-44) -/

/-- `2 ^ 64`; the source masks with `MASK64 = (1 <<< 64) - 1`, i.e. reduces
modulo `2 ^ 64`. -/
def U64 : Nat := 2 ^ 64

/-- `SplitMix64.next_u64`: advance the state by the golden-ratio constant and
apply the xor-shift / odd-multiplier mixing steps.  Returns
`(new state, output)`. -/
def next_u64 (state : Nat) : Nat × Nat :=
  let s := (state + 0x9E3779B97F4A7C15) % U64
  let z1 := ((s ^^^ (s >>> 30)) * 0xBF58476D1CE4E5B9) % U64
  let z2 := ((z1 ^^^ (z1 >>> 27)) * 0x94D049BB133111EB) % U64
  (s, (z2 ^^^ (z2 >>> 31)) % U64)

/-- Python exceptions and error conditions that the embedded code can
produce, following the spec's taxonomy (§7). -/
inductive PyErr where
  /-- `ValueError("Missing reveal for player")` in `compute_master_seed`. -/
  | incompleteReveal
  /-- `ValueError("n must be > 0")` in `SplitMix64.randbelow`. -/
  | invalidRange
  /-- `IndexError` from `room.deck[idx]` when the deck is exhausted. -/
  | indexError
  /-- `KeyError` from `room.transcript["holes"][p.pid]`. -/
  | keyError
  /-- the rejection-sampling loop exceeded the fuel bound. -/
  | outOfFuel
  /-- `json.loads` (or similar) raising on a malformed inbound frame. -/
  | decodeError
deriving DecidableEq

/-- The `while True` rejection loop of `SplitMix64.randbelow`, with fuel. -/
def randbelowLoop (n limit : Nat) : Nat → Nat → Except PyErr (Nat × Nat)
  | 0, _ => .error .outOfFuel
  | fuel + 1, state =>
    let p := next_u64 state
    if p.2 < limit then .ok (p.2 % n, p.1) else randbelowLoop n limit fuel p.1

/-- `SplitMix64.randbelow(n)`: rejects `n ≤ 0`, otherwise rejection-samples
64-bit outputs below `limit = 2^64 - (2^64 % n)` and reduces the first
accepted draw modulo `n`.  Returns the value together with the PRNG state
after the accepted draw. -/
def randbelow (fuel state : Nat) (n : Int) : Except PyErr (Nat × Nat) :=
  if n ≤ 0 then .error .invalidRange
  else randbelowLoop n.toNat (U64 - U64 % n.toNat) fuel state

/-- The PRNG state after `k` calls to `next_u64` starting from `st0`. -/
def smStates (st0 : Nat) : Nat → Nat
  | 0 => st0
  | k + 1 => (next_u64 (smStates st0 k)).1

/-- The `k`-th (0-based) raw 64-bit output of the PRNG started at `st0`. -/
def smOut (st0 : Nat) (k : Nat) : Nat := (next_u64 (smStates st0 k)).2

/-! ### Permutation engine (`src/app.py` lines 46-64) -/

/-- `arr[i], arr[j] = arr[j], arr[i]` on a Python list (both indices are in
range at every call site; out-of-range reads leave the list unchanged). -/
def listSwap (l : List String) (i j : Nat) : List String :=
  match l.get? i, l.get? j with
  | some a, some b => (l.set i b).set j a
  | _, _ => l

/-- The Fisher–Yates loop `for i in range(len(arr)-1, 0, -1)`: at index `i`
draw `j = rng.randbelow(i+1)` and swap positions `i` and `j`.  The first
argument of the recursion is the current value of `i`. -/
def fyLoop (fuel : Nat) : Nat → List String → Nat → Except PyErr (List String × Nat)
  | 0, arr, state => .ok (arr, state)
  | i + 1, arr, state =>
    match randbelow fuel state ((i + 2 : Nat) : Int) with
    | .error e => .error e
    | .ok (j, s') => fyLoop fuel i (listSwap arr (i + 1) j) s'

/-- `int.from_bytes(master_seed_bytes[:8], "big", signed=False)`. -/
def bytesToU64BE (bs : List Nat) : Nat :=
  (bs.take 8).foldl (fun a b => a * 256 + b) 0

/-- `deterministic_shuffle(items, master_seed_bytes)`: seed a `SplitMix64`
with the first 8 bytes of the master seed (big-endian) and run Fisher–Yates
over a copy of `items`. -/
def deterministic_shuffle (fuel : Nat) (items : List String) (master_seed_bytes : List Nat) :
    Except PyErr (List String) :=
  let seed_u64 := bytesToU64BE master_seed_bytes
  match fyLoop fuel (items.length - 1) items (seed_u64 % U64) with
  | .error e => .error e
  | .ok (arr, _) => .ok arr

/-- `RANKS` (`src/app.py` line 60). -/
def RANKS : List String := ["A", "K", "Q", "J", "10", "9", "8", "7", "6", "5", "4", "3", "2"]

/-- `SUITS` (`src/app.py` line 61). -/
def SUITS : List String := ["♠", "♥", "♦", "♣"]

/-- `make_deck()`: `[r + s for s in SUITS for r in RANKS]` — the canonical
52-card deck, suit-major. -/
def make_deck : List String := SUITS.flatMap (fun s => RANKS.map (fun r => r ++ s))

/-! ### Hashing helpers (`src/app.py` lines 66-70)

`hashlib.sha256` is an external library call; everything below is
parametrised by `sha : String → List Nat`, the digest (32 bytes) of the
UTF-8 encoding of a string. -/

/-- One lowercase hexadecimal digit. -/
def hexDigit (n : Nat) : Char :=
  if n < 10 then Char.ofNat (48 + n) else Char.ofNat (87 + n)

/-- Two lowercase hex characters for one byte (Python `bytes.hex` /
`.hexdigest()` encoding of a single byte). -/
def byteToHex (b : Nat) : String := String.mk [hexDigit (b / 16), hexDigit (b % 16)]

/-- Lowercase hex encoding of a byte string (`bytes.hex()`). -/
def bytesToHex (bs : List Nat) : String := String.join (bs.map byteToHex)

/-- `sha256_hex(s) = hashlib.sha256(s.encode()).hexdigest()`. -/
def sha256_hex (sha : String → List Nat) (s : String) : String := bytesToHex (sha s)

/-! ### Python string primitives used by the handler -/

/-- Lexicographic comparison of code-point sequences: Python's `<=` on
strings, used by `sorted(..., key=lambda kv: kv[0])`. -/
def lexLe : List Char → List Char → Bool
  | [], _ => true
  | _ :: _, [] => false
  | a :: as, b :: bs =>
    if a.toNat < b.toNat then true
    else if b.toNat < a.toNat then false
    else lexLe as bs

/-- `"sep".join(items)` (Python `str.join`). -/
def pyJoin (sep : String) : List String → String
  | [] => ""
  | [x] => x
  | x :: y :: xs => x ++ sep ++ pyJoin sep (y :: xs)

/-- Python slicing `s[:n]` by code points. -/
def pySlice (n : Nat) (s : String) : String := String.mk (s.data.take n)

/-- Python `str.upper()` (the inputs at the call site are ASCII keywords,
where Lean's `Char.toUpper` agrees with Python). -/
def pyUpper (s : String) : String := String.mk (s.data.map Char.toUpper)

/-! ### Room data model (`src/app.py` lines 79-113) -/

/-- The `Player` dataclass.  The `ws` handle is connection plumbing and is
not part of the state; `Optional[str]` fields are `Option String`. -/
structure Player where
  pid : String
  name : String
  avatar : String
  is_host : Bool
  commitment : Option String
  seed : Option String
  salt : Option String
  hole : List String
deriving DecidableEq

/-- The audit transcript dict created by `deal_hole` (the wall-clock
`created_at` stamp is external time and is omitted).  A fresh room carries
the empty dict `{}`, modelled by all fields empty. -/
structure Transcript where
  variant : String
  holes : List (String × List Nat)
  community_indices : List Nat
deriving DecidableEq

/-- The `Room` dataclass (`created_at` is external time and is omitted).
`players` is the insertion-ordered dict, keyed by `Player.pid`. -/
structure Room where
  code : String
  players : List Player
  variant : String
  stage : String
  community : List String
  deck : List String
  deal_index : Nat
  master_seed_hex : Option String
  transcript : Transcript
deriving DecidableEq

/-- `Room(code=code)` with dataclass defaults. -/
def room0 (code : String) : Room :=
  { code := code, players := [], variant := "TEXAS", stage := "LOBBY",
    community := [], deck := [], deal_index := 0, master_seed_hex := none,
    transcript := ⟨"", [], []⟩ }

/-! ### Master seed deriver (`src/app.py` lines 974-983) -/

/-- Insert a player into a pid-sorted list (Python's `sorted` by key is a
stable sort; with the distinct keys of a dict any sort by key agrees). -/
def insertByPid (p : Player) : List Player → List Player
  | [] => [p]
  | q :: qs => if lexLe p.pid.data q.pid.data then p :: q :: qs else q :: insertByPid p qs

/-- `sorted(room.players.items(), key=lambda kv: kv[0])`. -/
def sortByPid : List Player → List Player
  | [] => []
  | p :: ps => insertByPid p (sortByPid ps)

/-- The loop of `compute_master_seed`: for each player in sorted order,
raise `ValueError` if `not (p.seed and p.salt)`, else collect
`f"{pid}:{p.seed}:{p.salt}"`. -/
def msItems : List Player → Except PyErr (List String)
  | [] => .ok []
  | p :: ps =>
    if p.seed.getD "" = "" ∨ p.salt.getD "" = "" then .error .incompleteReveal
    else
      match msItems ps with
      | .error e => .error e
      | .ok rest => .ok ((p.pid ++ ":" ++ p.seed.getD "" ++ ":" ++ p.salt.getD "") :: rest)

/-- `compute_master_seed(room)`: combine the reveals sorted by pid, join
with `"|"`, append a trailing `"|"`, and hash; returns the digest both as
raw bytes and as lowercase hex. -/
def compute_master_seed (sha : String → List Nat) (r : Room) :
    Except PyErr (List Nat × String) :=
  match msItems (sortByPid r.players) with
  | .error e => .error e
  | .ok items =>
    let joined := pyJoin "|" items ++ "|"
    let digest := sha joined
    .ok (digest, bytesToHex digest)

/-! ### Deal engine (`src/app.py` lines 985-1035) -/

/-- `reset_hand(room)`. -/
def reset_hand (r : Room) : Room :=
  { r with community := [], deck := [], deal_index := 0, master_seed_hex := none,
           transcript := ⟨"", [], []⟩,
           players := r.players.map (fun p => { p with hole := [] }) }

/-- `holes[k].append(idx)` on the transcript dict: append to the entry of
key `k`, `KeyError` (`none`) if the key is absent. -/
def updAssoc (k : String) (idx : Nat) : List (String × List Nat) → Option (List (String × List Nat))
  | [] => none
  | (k', v) :: rest =>
    if k' = k then some ((k', v ++ [idx]) :: rest)
    else (updAssoc k idx rest).map (fun r => (k', v) :: r)

/-- One iteration of the inner dealing loop: give the player at position
`m` the card at the deal cursor, record the consumed index in their
transcript entry, advance the cursor.  On an out-of-range deck access the
`IndexError` propagates with the room as mutated so far. -/
def dealOne (r : Room) (m : Nat) : Room × Option PyErr :=
  match r.players.get? m with
  | none => (r, some .indexError)
  | some p =>
    match r.deck.get? r.deal_index with
    | none => (r, some .indexError)
    | some card =>
      match updAssoc p.pid r.deal_index r.transcript.holes with
      | none => (r, some .keyError)
      | some holes' =>
        ({ r with players := r.players.set m { p with hole := p.hole ++ [card] },
                  transcript := { r.transcript with holes := holes' },
                  deal_index := r.deal_index + 1 }, none)

/-- Deal one card to each of the given player positions in order, stopping
at the first raised exception. -/
def dealSeq (r : Room) : List Nat → Room × Option PyErr
  | [] => (r, none)
  | m :: ms =>
    match dealOne r m with
    | (r', none) => dealSeq r' ms
    | (r', some e) => (r', some e)

/-- `for _ in range(hole_n): for p in order: ...` — the round-by-round hole
card loop of `deal_hole`. -/
def dealRounds : Nat → Room → Room × Option PyErr
  | 0, r => (r, none)
  | n + 1, r =>
    match dealSeq r (List.range r.players.length) with
    | (r', none) => dealRounds n r'
    | (r', some e) => (r', some e)

/-- `deal_hole(room)`: derive the master seed, shuffle a fresh deck,
initialise the transcript and every player's hole list, then deal
`hole_n` rounds (2 for TEXAS, 4 otherwise). -/
def deal_hole (sha : String → List Nat) (fuel : Nat) (r : Room) : Room × Option PyErr :=
  match compute_master_seed sha r with
  | .error e => (r, some e)
  | .ok (master_bytes, master_hex) =>
    let r := { r with master_seed_hex := some master_hex }
    match deterministic_shuffle fuel make_deck master_bytes with
    | .error e => (r, some e)
    | .ok deck =>
      let r := { r with deck := deck, deal_index := 0,
                        transcript := ⟨r.variant, r.players.map (fun p => (p.pid, [])), []⟩,
                        players := r.players.map (fun p => { p with hole := [] }) }
      let hole_n := if r.variant = "TEXAS" then 2 else 4
      dealRounds hole_n r

/-- `deal_community(room, count)`: move `count` cards from the deal cursor
to the community, recording each consumed index. -/
def deal_community : Nat → Room → Room × Option PyErr
  | 0, r => (r, none)
  | n + 1, r =>
    match r.deck.get? r.deal_index with
    | none => (r, some .indexError)
    | some card =>
      deal_community n
        { r with community := r.community ++ [card],
                 transcript := { r.transcript with
                                  community_indices := r.transcript.community_indices ++ [r.deal_index] },
                 deal_index := r.deal_index + 1 }

/-- Hole cards for every player plus the full community
(flop 3 + turn 1 + river 1), as performed by a hand that runs to the
river. -/
def fullDeal (sha : String → List Nat) (fuel : Nat) (r : Room) : Room × Option PyErr :=
  match deal_hole sha fuel r with
  | (r1, some e) => (r1, some e)
  | (r1, none) =>
    match deal_community 3 r1 with
    | (r2, some e) => (r2, some e)
    | (r2, none) =>
      match deal_community 1 r2 with
      | (r3, some e) => (r3, some e)
      | (r3, none) => deal_community 1 r3

/-- All deck indices recorded in a transcript: every player's hole indices
followed by the community indices. -/
def allIdx (t : Transcript) : List Nat :=
  (t.holes.map (fun e => e.2)).flatten ++ t.community_indices

/-! ### The websocket handler as a state machine (`src/app.py` lines 1047-1210) -/

/-- The inbound message kinds of the protocol (§6 of the spec); payload
fields are optional strings, `none` standing for an absent (or non-string)
JSON field.  `other` is any unrecognized `type`. -/
inductive Msg where
  | join (name avatar : Option String)
  | commit (commitment : Option String)
  | reveal (seed salt : Option String)
  | start_hand (variant : Option String)
  | deal (what : Option String)
  | new_hand
  | audit
  | other
deriving DecidableEq

/-- How the handler disposed of one inbound message. -/
inductive Outcome where
  /-- the action was applied (state broadcast follows). -/
  | ok
  /-- the action was rejected by an explicit check; the payload is the
  human-readable notice sent to the offending participant. -/
  | rejected (notice : String)
  /-- an exception escaped to the `except Exception` handler of `ws`. -/
  | crashed (e : PyErr)
deriving DecidableEq

/-- The room's player of the given pid; reads of an absent pid see a
fresh default `Player` (the connection-local object) and writes to it do
not affect the room. -/
def findPlayer (r : Room) (pid : String) : Player :=
  (r.players.find? (fun q => q.pid = pid)).getD
    ⟨pid, "Player", "", false, none, none, none, []⟩

/-- Update the dict entry of `pid` in place. -/
def updatePlayer (r : Room) (pid : String) (f : Player → Player) : Room :=
  { r with players := r.players.map (fun q => if q.pid = pid then f q else q) }

/-- `room.players.pop(pid, None)`. -/
def popPlayer (r : Room) (pid : String) : Room :=
  { r with players := r.players.filter (fun q => ¬ q.pid = pid) }

/-- `room.players[pid] = player`: overwrite in place if present, else
append in join order. -/
def dictSet (ps : List Player) (p : Player) : List Player :=
  if ps.any (fun q => q.pid = p.pid) then ps.map (fun q => if q.pid = p.pid then p else q)
  else ps ++ [p]

/-- Lines 1056-1064 of `ws`: a new connection's temporary player, host iff
the room was empty. -/
def connectPlayer (r : Room) (pid : String) : Room :=
  { r with players := dictSet r.players ⟨pid, "Player", "", r.players.isEmpty, none, none, none, []⟩ }

/-- The `WebSocketDisconnect` handler (lines 1198-1205): pop the player
and, if no host remains in a non-empty room, promote the first remaining
player in join order. -/
def disconnectPlayer (r : Room) (pid : String) : Room :=
  let r1 := popPlayer r pid
  if ¬ r1.players.any (fun p => p.is_host) then
    match r1.players with
    | [] => r1
    | q :: qs => { r1 with players := { q with is_host := true } :: qs }
  else r1

/-- The scan of `start_hand` (lines 1124-1130): the notice for the first
player lacking a commitment or a reveal, if any. -/
def firstUnready : List Player → Option String
  | [] => none
  | p :: ps =>
    if p.commitment.getD "" = "" then some (p.name ++ " has not committed.")
    else if p.seed.getD "" = "" ∨ p.salt.getD "" = "" then
      some (p.name ++ " has not revealed to server.")
    else firstUnready ps

/-- The body of the `while True` receive loop of `ws` for one inbound
message, without the outer exception handler. -/
def handleMsg (sha : String → List Nat) (fuel : Nat) (r : Room) (pid : String) (m : Msg) :
    Room × Outcome :=
  match m with
  | .join nm av =>
    let name := pySlice 18 (if nm.getD "" = "" then "Player" else nm.getD "")
    let avatar := pySlice 2 (av.getD "")
    (updatePlayer r pid (fun p => { p with name := name, avatar := avatar }), .ok)
  | .commit c =>
    let cs := c.getD ""
    if cs = "" ∨ cs.length ≠ 64 then (r, .rejected "Invalid commitment.")
    else
      let r1 := updatePlayer r pid (fun p => { p with commitment := some cs })
      let r2 := if r1.stage = "LOBBY" then { r1 with stage := "COMMIT" } else r1
      (r2, .ok)
  | .reveal se sa =>
    let seed := se.getD ""
    let salt := sa.getD ""
    let p := findPlayer r pid
    if p.commitment.getD "" = "" then (r, .rejected "Commit first.")
    else
      let calcHex := sha256_hex sha (seed ++ "|" ++ salt)
      if calcHex ≠ p.commitment.getD "" then
        (r, .rejected "Reveal does not match commitment ❌")
      else
        let r1 := updatePlayer r pid (fun q => { q with seed := some seed, salt := some salt })
        ({ r1 with stage := "REVEAL" }, .ok)
  | .start_hand v =>
    if ¬ (findPlayer r pid).is_host then (r, .rejected "Host only.")
    else
      let variant := pyUpper (if v.getD "" = "" then "TEXAS" else v.getD "")
      let variant := if ¬ (variant = "TEXAS" ∨ variant = "OMAHA") then "TEXAS" else variant
      let r1 := { r with variant := variant }
      if r1.players.length < 2 then (r1, .rejected "Need at least 2 players.")
      else
        match firstUnready r1.players with
        | some notice => (r1, .rejected notice)
        | none =>
          match deal_hole sha fuel (reset_hand r1) with
          | (r2, some e) => (r2, .crashed e)
          | (r2, none) => ({ r2 with stage := "HAND" }, .ok)
  | .deal w =>
    if ¬ (findPlayer r pid).is_host then (r, .rejected "Host only.")
    else if ¬ r.stage = "HAND" ∨ r.deck = [] then (r, .rejected "Start a hand first.")
    else if w = some "flop" ∧ r.community.length = 0 then
      match deal_community 3 r with
      | (r', none) => (r', .ok)
      | (r', some e) => (r', .crashed e)
    else if w = some "turn" ∧ r.community.length = 3 then
      match deal_community 1 r with
      | (r', none) => (r', .ok)
      | (r', some e) => (r', .crashed e)
    else if w = some "river" ∧ r.community.length = 4 then
      match deal_community 1 r with
      | (r', none) => (r', .ok)
      | (r', some e) => (r', .crashed e)
    else (r, .rejected "That deal action is not valid right now.")
  | .new_hand =>
    if ¬ (findPlayer r pid).is_host then (r, .rejected "Host only.")
    else
      let r1 := { reset_hand r with stage := "HAND" }
      match deal_hole sha fuel r1 with
      | (r2, some e) => (r2, .crashed e)
      | (r2, none) => (r2, .ok)
  | .audit =>
    if ¬ r.stage = "HAND" ∨ r.deck = [] ∨ r.master_seed_hex.getD "" = "" then
      (r, .rejected "Nothing to audit yet.")
    else ({ r with stage := "AUDIT" }, .ok)
  | .other => (r, .rejected "Unknown message.")

/-- One externally visible event on a room's connection set. -/
inductive Event where
  /-- a websocket connects (lines 1047-1064). -/
  | connect (pid : String)
  /-- an inbound protocol message from a connected participant. -/
  | message (pid : String) (m : Msg)
  /-- `WebSocketDisconnect` (line 1198). -/
  | disconnect (pid : String)
  /-- a frame whose decoding raises, hitting `except Exception` directly. -/
  | badFrame (pid : String)
deriving DecidableEq

/-- One step of the per-room state machine, including the outer exception
handler of `ws`: an escaping exception pops the offending player (with no
host re-assignment, lines 1207-1210). -/
def handleEvent (sha : String → List Nat) (fuel : Nat) (r : Room) : Event → Room × Outcome
  | .connect pid => (connectPlayer r pid, .ok)
  | .message pid m =>
    match handleMsg sha fuel r pid m with
    | (r', .crashed e) => (popPlayer r' pid, .crashed e)
    | (r', o) => (r', o)
  | .disconnect pid => (disconnectPlayer r pid, .ok)
  | .badFrame pid => (popPlayer r pid, .crashed .decodeError)

/-- Room states reachable from a fresh room by any event interleaving. -/
inductive Reachable (sha : String → List Nat) (fuel : Nat) : Room → Prop where
  | init (code : String) : Reachable sha fuel (room0 code)
  | step {r : Room} (ev : Event) :
      Reachable sha fuel r → Reachable sha fuel (handleEvent sha fuel r ev).1

/-- The number of participants flagged as host. -/
def countHosts (r : Room) : Nat := (r.players.filter (fun p => p.is_host)).length

/-! ### Spec-side definitions

Restatements of what the specification says, used to compare against the
embedded source functions. -/

/-- The specification's description of the master-seed preimage: for each
participant in pid-sorted order, the string `identity ":" seed ":" salt "|"`,
concatenated in that order. -/
def specConcat (ps : List Player) : String :=
  ((sortByPid ps).map
    (fun p => p.pid ++ ":" ++ p.seed.getD "" ++ ":" ++ p.salt.getD "" ++ "|")).foldr
    (fun a b => a ++ b) ""

/-- The room invariant of the data model (§3): the deal cursor never
exceeds the deck length, and the deck is either empty (no hand in
progress) or a permutation of the 52 canonical cards with no duplicates. -/
def DeckInv (r : Room) : Prop :=
  r.deal_index ≤ r.deck.length ∧
    (r.deck = [] ∨ (r.deck.Perm make_deck ∧ r.deck.Nodup))

/-- The specification's well-formedness condition on a commitment: a
256-bit digest encoded as lowercase hex, i.e. exactly 64 lowercase
hexadecimal characters. -/
def IsLowerHexCommitment (s : String) : Prop :=
  s.length = 64 ∧
    ∀ c ∈ s.data, (48 ≤ c.toNat ∧ c.toNat ≤ 57) ∨ (97 ≤ c.toNat ∧ c.toNat ≤ 102)

instance (s : String) : Decidable (IsLowerHexCommitment s) := by
  unfold IsLowerHexCommitment; infer_instance

/-! ### Concrete fixtures for witnesses and counterexamples -/

/-- A stand-in for the external SHA-256 digest function: every theorem
that depends on the digest's structure is quantified over an arbitrary
`sha`; this constant instance is used only to instantiate such theorems
on concrete runs. -/
def shaW : String → List Nat := fun _ => List.replicate 32 0

/-- `sha256_hex shaW` of anything: 64 zero characters. -/
def z64 : String := sha256_hex shaW ("s1" ++ "|" ++ "t1")

/-- A 64-character string that is not a `shaW` digest. -/
def o64 : String := String.mk (List.replicate 64 '1')

/-- Run a list of events through `handleEvent`, keeping the room state. -/
def runEvents (sha : String → List Nat) (fuel : Nat) (r : Room) : List Event → Room
  | [] => r
  | e :: es => runEvents sha fuel (handleEvent sha fuel r e).1 es

/-- Two participants connect; the first becomes host; neither commits or
reveals anything. -/
def rAB : Room := runEvents shaW 5 (room0 "R") [.connect "A", .connect "B"]

/-- `rAB` after the host's connection hits the generic exception handler
(for instance on a malformed frame). -/
def rNoHost : Room := (handleEvent shaW 5 rAB (.badFrame "A")).1

/-- A commit–reveal–recommit trace: participant `A` commits to
`("s1","t1")`, reveals it, then overwrites the commitment with `o64`;
participant `B` commits to and reveals `("s2","t2")`. -/
def r10 : Room :=
  runEvents shaW 5 (room0 "R")
    [.connect "A", .connect "B",
     .message "A" (.commit (some z64)), .message "A" (.reveal (some "s1") (some "t1")),
     .message "A" (.commit (some o64)),
     .message "B" (.commit (some z64)), .message "B" (.reveal (some "s2") (some "t2"))]

/-- A two-player room with all reveals on file, ready for a hand. -/
def rT : Room :=
  { room0 "T" with players :=
      [⟨"A", "A", "", true, some z64, some "s1", some "t1", []⟩,
       ⟨"B", "B", "", false, some z64, some "s2", some "t2", []⟩] }

/-- A room whose only participant has no commitment on file. -/
def rz : Room := connectPlayer (room0 "R") "A"

/-- Like `rT` but participant `A`'s live commitment is `o64`, which no
`shaW` reveal can match. -/
def rM : Room :=
  { room0 "M" with players :=
      [⟨"A", "A", "", true, some o64, some "s1", some "t1", []⟩,
       ⟨"B", "B", "", false, some z64, some "s2", some "t2", []⟩] }

/-- 64 `'z'` characters: the right length for a commitment but not hex. -/
def zstr : String := String.mk (List.replicate 64 'z')

/-- The concrete deck produced by `deterministic_shuffle` with fuel 5 on
the canonical deck and the master-seed bytes `[0, 1, …, 31]`. -/
def D52 : List String :=
  ["Q♠", "7♦", "4♦", "10♠", "A♣", "A♥", "K♦", "8♦", "7♥", "3♥", "Q♣", "J♣", "9♠",
   "6♦", "9♦", "4♥", "J♥", "5♣", "J♦", "9♥", "10♥", "A♦", "3♠", "6♠", "Q♦", "6♥",
   "3♦", "2♦", "2♠", "8♣", "10♦", "2♥", "K♣", "2♣", "A♠", "7♠", "10♣", "5♥", "6♣",
   "K♥", "J♠", "8♥", "3♣", "5♦", "K♠", "Q♥", "4♣", "7♣", "5♠", "9♣", "8♠", "4♠"]

/-- A two-player room whose participants joined in the order `b`, `a` —
the reverse of pid order — with all reveals on file. -/
def rW : Room :=
  { room0 "W" with players :=
      [⟨"b", "Bea", "", true, some z64, some "sb", some "tb", []⟩,
       ⟨"a", "Alf", "", false, some z64, some "sa", some "ta", []⟩] }

/-- The same two participants as `rW`, joined in the opposite order. -/
def rW2 : Room :=
  { room0 "W" with players :=
      [⟨"a", "Alf", "", false, some z64, some "sa", some "ta", []⟩,
       ⟨"b", "Bea", "", true, some z64, some "sb", some "tb", []⟩] }

/-! ## Lemmas about the PRNG stream -/

theorem smStates_shift (st : Nat) (k : Nat) :
    smStates (next_u64 st).1 k = smStates st (k + 1) := by
  induction k with
  | zero => simp only [smStates]
  | succ k ih => simp only [smStates, ih]

theorem smOut_shift (st k : Nat) : smOut (next_u64 st).1 k = smOut st (k + 1) := by
  unfold smOut; rw [smStates_shift]

theorem randbelowLoop_ok (n limit : Nat) :
    ∀ (fuel st v s' : Nat), randbelowLoop n limit fuel st = .ok (v, s') →
      ∃ k, k < fuel ∧ (∀ m, m < k → limit ≤ smOut st m) ∧ smOut st k < limit ∧
        v = smOut st k % n ∧ s' = smStates st (k + 1) := by
  intro fuel
  induction fuel with
  | zero => intro st v s' h; exact absurd h (by simp [randbelowLoop])
  | succ f ih =>
    intro st v s' h
    simp only [randbelowLoop] at h
    by_cases hr : (next_u64 st).2 < limit
    · rw [if_pos hr] at h
      simp only [Except.ok.injEq, Prod.mk.injEq] at h
      exact ⟨0, Nat.succ_pos f, by omega, hr, h.1.symm, h.2.symm⟩
    · rw [if_neg hr] at h
      obtain ⟨k, hk, hrej, hacc, hv, hs⟩ := ih (next_u64 st).1 v s' h
      refine ⟨k + 1, by omega, ?_, ?_, ?_, ?_⟩
      · intro m hm
        cases m with
        | zero => exact Nat.le_of_not_lt hr
        | succ m' => rw [← smOut_shift]; exact hrej m' (by omega)
      · rw [← smOut_shift]; exact hacc
      · rw [← smOut_shift]; exact hv
      · rw [← smStates_shift]; exact hs

/-- **C3** (bounded sampling): for every `n > 0`, `randbelow(n)` computes
`limit = 2^64 - (2^64 mod n)`, rejects every raw 64-bit output `≥ limit`,
and returns `value mod n` for the first accepted draw — hence a value in
`[0, n)`; for `n ≤ 0` it fails with `InvalidRange`. -/
theorem c3_randbelow_bounded (fuel state : Nat) (n : Int) :
    (n ≤ 0 → randbelow fuel state n = .error .invalidRange) ∧
    (0 < n → ∀ v s', randbelow fuel state n = .ok (v, s') →
      v < n.toNat ∧
      ∃ k, k < fuel ∧ (∀ m, m < k → U64 - U64 % n.toNat ≤ smOut state m) ∧
        smOut state k < U64 - U64 % n.toNat ∧
        v = smOut state k % n.toNat ∧ s' = smStates state (k + 1)) := by
  constructor
  · intro hn; simp [randbelow, hn]
  · intro hn v s' h
    have hn' : ¬ n ≤ 0 := by omega
    rw [randbelow, if_neg hn'] at h
    have hk := randbelowLoop_ok n.toNat (U64 - U64 % n.toNat) fuel state v s' h
    refine ⟨?_, hk⟩
    obtain ⟨k, _, _, _, hv, _⟩ := hk
    have hpos : 0 < n.toNat := by omega
    exact hv ▸ Nat.mod_lt _ hpos

theorem c3_witness :
    randbelow 1 0 (-3) = .error .invalidRange ∧
    (0 < (5 : Int).toNat ∧
      ∃ k, k < 1 ∧ (∀ m, m < k → U64 - U64 % (5 : Int).toNat ≤ smOut 0 m) ∧
        smOut 0 k < U64 - U64 % (5 : Int).toNat ∧
        0 = smOut 0 k % (5 : Int).toNat ∧ 11400714819323198485 = smStates 0 (k + 1)) :=
  ⟨(c3_randbelow_bounded 1 0 (-3)).1 (by decide),
   (c3_randbelow_bounded 1 0 5).2 (by decide) 0 11400714819323198485 (by rfl)⟩

/-! ## Lemmas about swaps and the Fisher–Yates loop -/

theorem cons_set_perm (x : String) : ∀ (b : String) (xs : List String) (m : Nat),
    xs.get? m = some b → (b :: xs.set m x).Perm (x :: xs)
  | _, [], _, h => Option.noConfusion h
  | b, y :: t, 0, h => by
      injection h with h; subst h
      exact List.Perm.swap x y t
  | b, y :: t, m + 1, h => by
      have ih := cons_set_perm x b t m h
      exact (List.Perm.swap y b (t.set m x)).trans
        ((List.Perm.cons y ih).trans (List.Perm.swap x y t))

theorem set_set_perm : ∀ (l : List String) (i j : Nat) (a b : String),
    l.get? i = some a → l.get? j = some b → ((l.set i b).set j a).Perm l
  | [], _, _, _, _, hi, _ => Option.noConfusion hi
  | y :: ys, 0, 0, a, b, hi, hj => by
      injection hi with hi; subst hi
      exact List.Perm.refl _
  | y :: ys, 0, j + 1, a, b, hi, hj => by
      injection hi with hi; subst hi
      exact cons_set_perm y b ys j hj
  | y :: ys, i + 1, 0, a, b, hi, hj => by
      injection hj with hj; subst hj
      exact cons_set_perm y a ys i hi
  | y :: ys, i + 1, j + 1, a, b, hi, hj =>
      List.Perm.cons y (set_set_perm ys i j a b hi hj)

theorem listSwap_perm (l : List String) (i j : Nat) : (listSwap l i j).Perm l := by
  unfold listSwap
  split
  · rename_i a b hi hj; exact set_set_perm l i j a b hi hj
  · exact List.Perm.refl l

theorem fyLoop_perm (fuel : Nat) : ∀ (i : Nat) (arr : List String) (st : Nat)
    (arr' : List String) (st' : Nat), fyLoop fuel i arr st = .ok (arr', st') → arr'.Perm arr
  | 0, arr, st, arr', st', h => by
      simp [fyLoop] at h
      exact h.1 ▸ List.Perm.refl arr
  | i + 1, arr, st, arr', st', h => by
      rw [fyLoop] at h
      cases hr : randbelow fuel st ((i + 2 : Nat) : Int) with
      | error e => rw [hr] at h; exact absurd h (by simp)
      | ok js =>
          obtain ⟨j, s⟩ := js
          rw [hr] at h
          exact (fyLoop_perm fuel i _ _ _ _ h).trans (listSwap_perm arr (i + 1) j)

theorem deterministic_shuffle_perm (fuel : Nat) (items : List String) (bytes : List Nat)
    (out : List String) (h : deterministic_shuffle fuel items bytes = .ok out) :
    out.Perm items := by
  simp only [deterministic_shuffle] at h
  cases hr : fyLoop fuel (items.length - 1) items (bytesToU64BE bytes % U64) with
  | error e => rw [hr] at h; exact absurd h (by simp)
  | ok p =>
      obtain ⟨arr, st⟩ := p
      rw [hr] at h
      simp only [Except.ok.injEq] at h
      exact h ▸ fyLoop_perm fuel _ _ _ arr st hr

/-- **C2** (permutation validity): for every master-seed byte string, the
Fisher–Yates engine seeded from the first 8 bytes (big-endian `u64`)
returns, whenever its rejection-sampling fuel suffices, a deck that is a
permutation of the 52 canonical cards — no duplicates, no omissions. -/
theorem c2_shuffle_permutation (fuel : Nat) (master_seed_bytes : List Nat) (deck : List String)
    (h : deterministic_shuffle fuel make_deck master_seed_bytes = .ok deck) :
    deck.Perm make_deck ∧ deck.Nodup ∧ deck.length = 52 ∧ (∀ c, c ∈ deck ↔ c ∈ make_deck) := by
  have hp := deterministic_shuffle_perm fuel make_deck master_seed_bytes deck h
  refine ⟨hp, (show make_deck.Nodup by decide).perm hp.symm,
    hp.length_eq.trans (by decide), fun c => hp.mem_iff⟩

theorem c2_witness :
    D52.Perm make_deck ∧ D52.Nodup ∧ D52.length = 52 ∧ (∀ c, c ∈ D52 ↔ c ∈ make_deck) :=
  c2_shuffle_permutation 5 (List.range 32) D52 (by decide)

/-! ## Lemmas about Python string ordering and pid-sorting -/

theorem charToNat_inj {a b : Char} (h : a.toNat = b.toNat) : a = b :=
  Char.eq_of_val_eq (UInt32.eq_of_val_eq (Fin.ext h))

theorem stringData_inj : ∀ {x y : String}, x.data = y.data → x = y
  | ⟨_⟩, ⟨_⟩, h => congrArg String.mk h

theorem lexLe_total : ∀ x y : List Char, lexLe x y = true ∨ lexLe y x = true
  | [], _ => .inl rfl
  | _ :: _, [] => .inr rfl
  | a :: as, b :: bs => by
      by_cases h1 : a.toNat < b.toNat
      · left; simp [lexLe, h1]
      · by_cases h2 : b.toNat < a.toNat
        · right; simp [lexLe, h2]
        · rcases lexLe_total as bs with h | h
          · left; simp [lexLe, h1, h2, h]
          · right; simp [lexLe, h1, h2, h]

theorem lexLe_trans : ∀ x y z : List Char,
    lexLe x y = true → lexLe y z = true → lexLe x z = true
  | [], _, _, _, _ => rfl
  | _ :: _, [], _, h, _ => absurd h (by simp [lexLe])
  | _ :: _, _ :: _, [], _, h => absurd h (by simp [lexLe])
  | a :: as, b :: bs, c :: cs, h1, h2 => by
      simp only [lexLe] at h1 h2 ⊢
      by_cases hab : a.toNat < b.toNat
      · by_cases hbc : b.toNat < c.toNat
        · rw [if_pos (show a.toNat < c.toNat by omega)]
        · by_cases hcb : c.toNat < b.toNat
          · rw [if_neg hbc, if_pos hcb] at h2
            exact absurd h2 (by simp)
          · rw [if_pos (show a.toNat < c.toNat by omega)]
      · by_cases hba : b.toNat < a.toNat
        · rw [if_neg hab, if_pos hba] at h1
          exact absurd h1 (by simp)
        · rw [if_neg hab, if_neg hba] at h1
          by_cases hbc : b.toNat < c.toNat
          · rw [if_pos (show a.toNat < c.toNat by omega)]
          · by_cases hcb : c.toNat < b.toNat
            · rw [if_neg hbc, if_pos hcb] at h2
              exact absurd h2 (by simp)
            · rw [if_neg hbc, if_neg hcb] at h2
              rw [if_neg (show ¬ a.toNat < c.toNat by omega),
                if_neg (show ¬ c.toNat < a.toNat by omega)]
              exact lexLe_trans as bs cs h1 h2

theorem lexLe_antisymm : ∀ x y : List Char,
    lexLe x y = true → lexLe y x = true → x = y
  | [], [], _, _ => rfl
  | [], _ :: _, _, h => absurd h (by simp [lexLe])
  | _ :: _, [], h, _ => absurd h (by simp [lexLe])
  | a :: as, b :: bs, h1, h2 => by
      simp only [lexLe] at h1 h2
      by_cases hab : a.toNat < b.toNat
      · rw [if_neg (show ¬ b.toNat < a.toNat by omega), if_pos hab] at h2
        exact absurd h2 (by simp)
      · by_cases hba : b.toNat < a.toNat
        · rw [if_neg hab, if_pos hba] at h1
          exact absurd h1 (by simp)
        · rw [if_neg hab, if_neg hba] at h1
          rw [if_neg hba, if_neg hab] at h2
          have hc : a = b := charToNat_inj (by omega)
          rw [hc, lexLe_antisymm as bs h1 h2]

theorem insertByPid_perm (p : Player) : ∀ l : List Player, (insertByPid p l).Perm (p :: l)
  | [] => List.Perm.refl _
  | q :: qs => by
      rw [insertByPid]
      split
      · exact List.Perm.refl _
      · exact (List.Perm.cons q (insertByPid_perm p qs)).trans (List.Perm.swap p q qs)

theorem sortByPid_perm : ∀ l : List Player, (sortByPid l).Perm l
  | [] => List.Perm.refl _
  | p :: ps =>
      (insertByPid_perm p (sortByPid ps)).trans (List.Perm.cons p (sortByPid_perm ps))

theorem insertByPid_pairwise (p : Player) : ∀ l : List Player,
    List.Pairwise (fun a b => lexLe a.pid.data b.pid.data = true) l →
    List.Pairwise (fun a b => lexLe a.pid.data b.pid.data = true) (insertByPid p l)
  | [], _ =>
      List.Pairwise.cons (fun b hb => absurd hb (List.not_mem_nil b)) List.Pairwise.nil
  | q :: qs, h => by
      rw [insertByPid]
      split
      · rename_i hpq
        refine List.Pairwise.cons ?_ h
        intro x hx
        rcases List.mem_cons.mp hx with rfl | hx'
        · exact hpq
        · exact lexLe_trans _ _ _ hpq (List.rel_of_pairwise_cons h hx')
      · rename_i hpq
        have hqp : lexLe q.pid.data p.pid.data = true := by
          rcases lexLe_total p.pid.data q.pid.data with h' | h'
          · exact absurd h' hpq
          · exact h'
        obtain ⟨hq, hqs⟩ := List.pairwise_cons.mp h
        refine List.Pairwise.cons ?_ (insertByPid_pairwise p qs hqs)
        intro x hx
        rcases List.mem_cons.mp ((insertByPid_perm p qs).mem_iff.mp hx) with rfl | hx'
        · exact hqp
        · exact hq x hx'

theorem sortByPid_pairwise : ∀ l : List Player,
    List.Pairwise (fun a b => lexLe a.pid.data b.pid.data = true) (sortByPid l)
  | [] => List.Pairwise.nil
  | p :: ps => insertByPid_pairwise p (sortByPid ps) (sortByPid_pairwise ps)

theorem sorted_pairwise_unique : ∀ l₁ l₂ : List Player, l₁.Perm l₂ →
    List.Pairwise (fun a b => lexLe a.pid.data b.pid.data = true ∧ a.pid ≠ b.pid) l₁ →
    List.Pairwise (fun a b => lexLe a.pid.data b.pid.data = true ∧ a.pid ≠ b.pid) l₂ →
    l₁ = l₂
  | [], l₂, hp, _, _ => by
      have := hp.symm.eq_nil
      exact this.symm
  | a :: t, l₂, hp, h₁, h₂ => by
      cases l₂ with
      | nil => exact absurd hp.eq_nil (by simp)
      | cons b t₂ =>
          have hab : a = b := by
            by_contra hne
            have ha2 : a ∈ b :: t₂ := hp.mem_iff.mp (List.mem_cons_self a t)
            have hb1 : b ∈ a :: t := hp.mem_iff.mpr (List.mem_cons_self b t₂)
            have ha2' : a ∈ t₂ := by
              rcases List.mem_cons.mp ha2 with h | h
              · exact absurd h hne
              · exact h
            have hb1' : b ∈ t := by
              rcases List.mem_cons.mp hb1 with h | h
              · exact absurd h.symm hne
              · exact h
            have r1 := List.rel_of_pairwise_cons h₁ hb1'
            have r2 := List.rel_of_pairwise_cons h₂ ha2'
            exact r1.2 (stringData_inj (lexLe_antisymm _ _ r1.1 r2.1))
          subst hab
          have ht := hp.cons_inv
          rw [sorted_pairwise_unique t t₂ ht (List.pairwise_cons.mp h₁).2
            (List.pairwise_cons.mp h₂).2]

theorem sortByPid_strict (l : List Player) (hn : (l.map Player.pid).Nodup) :
    List.Pairwise (fun a b => lexLe a.pid.data b.pid.data = true ∧ a.pid ≠ b.pid)
      (sortByPid l) := by
  have h1 := sortByPid_pairwise l
  have hnd : ((sortByPid l).map Player.pid).Nodup :=
    ((sortByPid_perm l).map Player.pid).nodup_iff.mpr hn
  have h2 : List.Pairwise (fun a b : Player => a.pid ≠ b.pid) (sortByPid l) :=
    List.pairwise_map.mp hnd
  exact h1.and h2

theorem sortByPid_eq_of_perm (l₁ l₂ : List Player) (hp : l₁.Perm l₂)
    (hn : (l₁.map Player.pid).Nodup) : sortByPid l₁ = sortByPid l₂ := by
  have hps : (sortByPid l₁).Perm (sortByPid l₂) :=
    (sortByPid_perm l₁).trans (hp.trans (sortByPid_perm l₂).symm)
  exact sorted_pairwise_unique _ _ hps (sortByPid_strict l₁ hn)
    (sortByPid_strict l₂ ((hp.map Player.pid).nodup_iff.mp hn))

/-! ## Lemmas about the master-seed deriver -/

theorem msItems_ok_of_all : ∀ l : List Player,
    (∀ p ∈ l, p.seed.getD "" ≠ "" ∧ p.salt.getD "" ≠ "") →
    msItems l = .ok (l.map (fun p => p.pid ++ ":" ++ p.seed.getD "" ++ ":" ++ p.salt.getD ""))
  | [], _ => rfl
  | p :: ps, h => by
      have hp := h p (List.mem_cons_self p ps)
      rw [msItems, if_neg (by simp [hp.1, hp.2]),
        msItems_ok_of_all ps (fun q hq => h q (List.mem_cons_of_mem p hq))]
      rfl

theorem msItems_error_of_bad : ∀ l : List Player,
    (∃ p ∈ l, p.seed.getD "" = "" ∨ p.salt.getD "" = "") →
    msItems l = .error .incompleteReveal
  | [], h => absurd h (by simp)
  | p :: ps, h => by
      rw [msItems]
      by_cases hp : p.seed.getD "" = "" ∨ p.salt.getD "" = ""
      · rw [if_pos hp]
      · rw [if_neg hp]
        have hps : ∃ q ∈ ps, q.seed.getD "" = "" ∨ q.salt.getD "" = "" := by
          rcases h with ⟨q, hq, hcond⟩
          rcases List.mem_cons.mp hq with rfl | hq'
          · exact absurd hcond hp
          · exact ⟨q, hq', hcond⟩
        rw [msItems_error_of_bad ps hps]

theorem msItems_error_val : ∀ (l : List Player) (e : PyErr),
    msItems l = .error e → e = .incompleteReveal
  | [], e, h => by rw [msItems] at h; exact absurd h (by simp)
  | p :: ps, e, h => by
      rw [msItems] at h
      by_cases hp : p.seed.getD "" = "" ∨ p.salt.getD "" = ""
      · rw [if_pos hp] at h
        injection h with h
        exact h.symm
      · rw [if_neg hp] at h
        cases hE2 : msItems ps with
        | error e' =>
            rw [hE2] at h
            injection h with h
            exact h ▸ msItems_error_val ps e' hE2
        | ok rest => rw [hE2] at h; exact absurd h (by simp)

theorem pyJoin_pipe : ∀ (x : String) (xs : List String),
    pyJoin "|" (x :: xs) ++ "|" =
      ((x :: xs).map (fun s => s ++ "|")).foldr (fun a b => a ++ b) ""
  | x, [] => by
      show x ++ "|" = (x ++ "|") ++ ""
      rw [String.append_empty]
  | x, y :: ys => by
      show (x ++ "|" ++ pyJoin "|" (y :: ys)) ++ "|" = _
      rw [String.append_assoc, pyJoin_pipe y ys]
      rfl

/-- **C1** (master seed derivation): `compute_master_seed` succeeds iff
every participant has a (Python-truthy) seed and salt, failing with
`IncompleteReveal` otherwise; on success it hashes exactly the
concatenation, over the participants sorted by identity, of
`identity ":" seed ":" salt "|"`, returning the digest as raw bytes and as
lowercase hex; and its value depends only on the set of
(identity, seed, salt) triples, not on join order. -/
theorem c1_master_seed (sha : String → List Nat) (r r2 : Room) :
    ((compute_master_seed sha r).isOk = true ↔
       ∀ p ∈ r.players, p.seed.getD "" ≠ "" ∧ p.salt.getD "" ≠ "") ∧
    ((compute_master_seed sha r).isOk = false →
       compute_master_seed sha r = .error .incompleteReveal) ∧
    (r.players ≠ [] → (∀ p ∈ r.players, p.seed.getD "" ≠ "" ∧ p.salt.getD "" ≠ "") →
       compute_master_seed sha r =
         .ok (sha (specConcat r.players), bytesToHex (sha (specConcat r.players)))) ∧
    (r.players.Perm r2.players → (r.players.map Player.pid).Nodup →
       compute_master_seed sha r = compute_master_seed sha r2) := by
  have hmem : ∀ p : Player, p ∈ sortByPid r.players ↔ p ∈ r.players :=
    fun p => (sortByPid_perm r.players).mem_iff
  refine ⟨⟨?_, ?_⟩, ?_, ?_, ?_⟩
  · intro hok p hp
    by_contra hbad
    have hcond : p.seed.getD "" = "" ∨ p.salt.getD "" = "" := by
      by_cases h1 : p.seed.getD "" = ""
      · exact .inl h1
      · by_cases h2 : p.salt.getD "" = ""
        · exact .inr h2
        · exact absurd ⟨h1, h2⟩ hbad
    have hE := msItems_error_of_bad (sortByPid r.players) ⟨p, (hmem p).mpr hp, hcond⟩
    rw [compute_master_seed, hE] at hok
    simp [Except.isOk, Except.toBool] at hok
  · intro hall
    have hE := msItems_ok_of_all (sortByPid r.players) (fun q hq => hall q ((hmem q).mp hq))
    rw [compute_master_seed, hE]
    rfl
  · intro hfalse
    cases hE : msItems (sortByPid r.players) with
    | ok its =>
        rw [compute_master_seed, hE] at hfalse
        simp [Except.isOk, Except.toBool] at hfalse
    | error e =>
        rw [compute_master_seed, hE, msItems_error_val _ e hE]
  · intro hne hall
    have hE := msItems_ok_of_all (sortByPid r.players) (fun q hq => hall q ((hmem q).mp hq))
    have hjoin : pyJoin "|"
        ((sortByPid r.players).map
          (fun p => p.pid ++ ":" ++ p.seed.getD "" ++ ":" ++ p.salt.getD "")) ++ "|" =
        specConcat r.players := by
      cases hs : sortByPid r.players with
      | nil =>
          have hlen := (sortByPid_perm r.players).length_eq
          rw [hs] at hlen
          exact absurd (List.length_eq_zero.mp hlen.symm) hne
      | cons q qs =>
          rw [specConcat, hs, List.map_cons, pyJoin_pipe]
          simp only [List.map_map, List.map_cons]
          rfl
    rw [compute_master_seed, hE]
    exact congrArg (fun s => Except.ok (sha s, bytesToHex (sha s))) hjoin
  · intro hperm hnodup
    rw [compute_master_seed, compute_master_seed,
      sortByPid_eq_of_perm r.players r2.players hperm hnodup]

theorem c1_witness :
    compute_master_seed shaW rW =
      .ok (shaW (specConcat rW.players), bytesToHex (shaW (specConcat rW.players))) ∧
    compute_master_seed shaW rW = compute_master_seed shaW rW2 :=
  ⟨(c1_master_seed shaW rW rW2).2.2.1 (by decide) (by decide),
   (c1_master_seed shaW rW rW2).2.2.2 (by decide) (by decide)⟩

/-! ## The commit and reveal branches of the handler -/

/-- **C4** (reveal binding): `reveal(seed, salt)` fails with the
no-commitment notice when no (truthy) commitment is on file; otherwise it
succeeds — storing seed and salt on the participant and leaving everything
else of the room unchanged except the stage — if and only if
`sha256_hex (seed ++ "|" ++ salt)` equals the stored commitment; on
inequality it fails with the mismatch notice and the room is unchanged. -/
theorem c4_reveal_binding (sha : String → List Nat) (fuel : Nat) (r : Room) (pid : String)
    (seed salt : String) (p : Player)
    (hp : r.players.find? (fun q => q.pid = pid) = some p) :
    ((p.commitment.getD "" = "") →
       handleMsg sha fuel r pid (.reveal (some seed) (some salt)) =
         (r, .rejected "Commit first.")) ∧
    (∀ c : String, p.commitment = some c → c ≠ "" →
      (sha256_hex sha (seed ++ "|" ++ salt) = c →
         handleMsg sha fuel r pid (.reveal (some seed) (some salt)) =
           ({ updatePlayer r pid
                (fun q => { q with seed := some seed, salt := some salt }) with
              stage := "REVEAL" }, .ok)) ∧
      (sha256_hex sha (seed ++ "|" ++ salt) ≠ c →
         handleMsg sha fuel r pid (.reveal (some seed) (some salt)) =
           (r, .rejected "Reveal does not match commitment ❌"))) := by
  have hfp : findPlayer r pid = p := by rw [findPlayer, hp]; rfl
  constructor
  · intro hc
    simp only [handleMsg, hfp, Option.getD_some]
    rw [if_pos hc]
  · intro c hcom hcne
    have hgd : p.commitment.getD "" = c := by rw [hcom]; rfl
    constructor
    · intro hmatch
      simp only [handleMsg, hfp, Option.getD_some]
      rw [if_neg (by rw [hgd]; exact hcne), if_neg (by rw [hgd, hmatch]; simp)]
    · intro hmiss
      simp only [handleMsg, hfp, Option.getD_some]
      rw [if_neg (by rw [hgd]; exact hcne), if_pos (by rw [hgd]; exact hmiss)]

theorem c4_witness :
    handleMsg shaW 1 rz "A" (.reveal (some "s") (some "t")) =
      (rz, .rejected "Commit first.") ∧
    handleMsg shaW 1 rT "A" (.reveal (some "s1") (some "t1")) =
      ({ updatePlayer rT "A" (fun q => { q with seed := some "s1", salt := some "t1" }) with
         stage := "REVEAL" }, .ok) ∧
    handleMsg shaW 1 rM "A" (.reveal (some "s1") (some "t1")) =
      (rM, .rejected "Reveal does not match commitment ❌") :=
  ⟨(c4_reveal_binding shaW 1 rz "A" "s" "t"
      ⟨"A", "Player", "", true, none, none, none, []⟩ (by decide)).1 (by decide),
   ((c4_reveal_binding shaW 1 rT "A" "s1" "t1"
      ⟨"A", "A", "", true, some z64, some "s1", some "t1", []⟩ (by decide)).2 z64
      (by decide) (by decide)).1 (by decide),
   ((c4_reveal_binding shaW 1 rM "A" "s1" "t1"
      ⟨"A", "A", "", true, some o64, some "s1", some "t1", []⟩ (by decide)).2 o64
      (by decide) (by decide)).2 (by decide)⟩

/-- **C5**, counterexample to "accepts iff 64 lowercase hex characters":
the commit branch accepts a 64-character string of `'z'`s, which is not
lowercase hex. -/
theorem c5_counterexample :
    (handleMsg shaW 1 rz "A" (.commit (some zstr))).2 = .ok ∧
    (findPlayer (handleMsg shaW 1 rz "A" (.commit (some zstr))).1 "A").commitment =
      some zstr ∧
    ¬ IsLowerHexCommitment zstr := by decide

/-- **C5** as amended: the commit branch accepts a submitted hash if and
only if it is present and exactly 64 characters long (its characters are
not inspected); it then overwrites exactly the sender's commitment.
Otherwise it rejects with the invalid-commitment notice and the room is
unchanged. -/
theorem c5_commit_length_only (sha : String → List Nat) (fuel : Nat) (r : Room)
    (pid : String) (c : String) :
    (c.length = 64 →
       (handleMsg sha fuel r pid (.commit (some c))).2 = .ok ∧
       (handleMsg sha fuel r pid (.commit (some c))).1.players =
         r.players.map (fun q => if q.pid = pid then { q with commitment := some c } else q)) ∧
    (c.length ≠ 64 →
       handleMsg sha fuel r pid (.commit (some c)) = (r, .rejected "Invalid commitment.")) := by
  constructor
  · intro hlen
    have hne : ¬ (c = "" ∨ c.length ≠ 64) := by
      rintro (rfl | h)
      · simp at hlen
      · exact h hlen
    simp only [handleMsg, Option.getD_some]
    rw [if_neg hne]
    constructor
    · split <;> rfl
    · split <;> rfl
  · intro hlen
    simp only [handleMsg, Option.getD_some]
    rw [if_pos (.inr hlen)]

theorem c5_witness :
    ((handleMsg shaW 1 rz "A" (.commit (some z64))).2 = .ok ∧
       (handleMsg shaW 1 rz "A" (.commit (some z64))).1.players =
         rz.players.map (fun q => if q.pid = "A" then { q with commitment := some z64 } else q)) ∧
    handleMsg shaW 1 rz "A" (.commit (some "xy")) = (rz, .rejected "Invalid commitment.") :=
  ⟨(c5_commit_length_only shaW 1 rz "A" z64).1 (by decide),
   (c5_commit_length_only shaW 1 rz "A" "xy").2 (by decide)⟩

/-! ## Lemmas about the deal engine and the transcript -/

theorem updAssoc_flatten : ∀ (hs : List (String × List Nat)) (k : String) (idx : Nat)
    (hs' : List (String × List Nat)), updAssoc k idx hs = some hs' →
    ((hs'.map (fun e => e.2)).flatten).Perm (idx :: (hs.map (fun e => e.2)).flatten)
  | [], k, idx, hs', h => by simp [updAssoc] at h
  | (k', v) :: rest, k, idx, hs', h => by
      rw [updAssoc] at h
      by_cases hk : k' = k
      · rw [if_pos hk] at h
        injection h with h
        subst h
        simp only [List.map_cons, List.flatten_cons]
        have hmid := @List.perm_middle Nat idx v ((rest.map (fun e => e.2)).flatten)
        simpa using hmid
      · rw [if_neg hk] at h
        cases hrec : updAssoc k idx rest with
        | none => rw [hrec] at h; simp at h
        | some rest' =>
            rw [hrec] at h
            simp only [Option.map_some'] at h
            injection h with h
            subst h
            simp only [List.map_cons, List.flatten_cons]
            have ih := updAssoc_flatten rest k idx rest' hrec
            exact (List.Perm.append_left v ih).trans List.perm_middle

theorem dealOne_ok (r : Room) (m : Nat) (r' : Room) (h : dealOne r m = (r', none)) :
    r'.deck = r.deck ∧ r'.deal_index = r.deal_index + 1 ∧
    r'.players.length = r.players.length ∧ r.deal_index < r.deck.length ∧
    r'.community = r.community ∧
    (allIdx r'.transcript).Perm (r.deal_index :: allIdx r.transcript) := by
  rw [dealOne] at h
  cases hp : r.players[m]? with
  | none => simp [hp] at h
  | some p =>
      simp only [List.get?_eq_getElem?, hp] at h
      cases hd : r.deck[r.deal_index]? with
      | none => simp [hd] at h
      | some card =>
          simp only [hd] at h
          cases hu : updAssoc p.pid r.deal_index r.transcript.holes with
          | none => simp [hu] at h
          | some holes' =>
              simp only [hu] at h
              injection h with h1 h2
              subst h1
              refine ⟨rfl, rfl, by simp, ?_, rfl, ?_⟩
              · rw [← List.get?_eq_getElem?] at hd
                obtain ⟨hlt, _⟩ := List.get?_eq_some.mp hd
                exact hlt
              · simp only [allIdx]
                exact (updAssoc_flatten _ _ _ _ hu).append_right _

theorem dealSeq_ok : ∀ (ms : List Nat) (r r' : Room), dealSeq r ms = (r', none) →
    r'.deck = r.deck ∧ r'.deal_index = r.deal_index + ms.length ∧
    r'.players.length = r.players.length ∧ r'.community = r.community ∧
    ((allIdx r.transcript).Perm (List.range r.deal_index) →
      (allIdx r'.transcript).Perm (List.range r'.deal_index)) ∧
    (r.deal_index ≤ r.deck.length → r'.deal_index ≤ r.deck.length)
  | [], r, r', h => by
      rw [dealSeq] at h
      injection h with h1 h2
      subst h1
      exact ⟨rfl, by simp, rfl, rfl, fun hp => hp, fun hp => hp⟩
  | m :: ms, r, r', h => by
      rw [dealSeq] at h
      cases h1 : dealOne r m with
      | mk r1 e1 =>
          rw [h1] at h
          cases e1 with
          | some e => simp at h
          | none =>
              obtain ⟨hdk, hix, hpl, hlt, hcm, hpm⟩ := dealOne_ok r m r1 h1
              obtain ⟨hdk', hix', hpl', hcm', hpm', hbd'⟩ := dealSeq_ok ms r1 r' h
              refine ⟨hdk'.trans hdk, by rw [hix', hix, List.length_cons]; omega,
                hpl'.trans hpl, hcm'.trans hcm, ?_, ?_⟩
              · intro hin
                apply hpm'
                rw [hix]
                refine hpm.trans ((hin.cons r.deal_index).trans ?_)
                rw [List.range_succ]
                exact (List.perm_append_singleton _ _).symm
              · intro _
                have h1b : r1.deal_index ≤ r1.deck.length := by
                  rw [hdk, hix]; omega
                have hfin := hbd' h1b
                rwa [hdk] at hfin

theorem dealRounds_ok : ∀ (n : Nat) (r r' : Room), dealRounds n r = (r', none) →
    r'.deck = r.deck ∧ r'.deal_index = r.deal_index + n * r.players.length ∧
    r'.players.length = r.players.length ∧ r'.community = r.community ∧
    ((allIdx r.transcript).Perm (List.range r.deal_index) →
      (allIdx r'.transcript).Perm (List.range r'.deal_index)) ∧
    (r.deal_index ≤ r.deck.length → r'.deal_index ≤ r.deck.length)
  | 0, r, r', h => by
      rw [dealRounds] at h
      injection h with h1 h2
      subst h1
      exact ⟨rfl, by simp, rfl, rfl, fun hp => hp, fun hp => hp⟩
  | n + 1, r, r', h => by
      rw [dealRounds] at h
      cases h1 : dealSeq r (List.range r.players.length) with
      | mk r1 e1 =>
          cases e1 with
          | some e => rw [h1] at h; simp at h
          | none =>
              rw [h1] at h
              obtain ⟨hdk, hix, hpl, hcm, hpm, hbd⟩ :=
                dealSeq_ok (List.range r.players.length) r r1 h1
              obtain ⟨hdk', hix', hpl', hcm', hpm', hbd'⟩ := dealRounds_ok n r1 r' h
              refine ⟨hdk'.trans hdk, ?_, hpl'.trans hpl, hcm'.trans hcm,
                fun hin => hpm' (hpm hin), ?_⟩
              · rw [hix', hix, hpl, List.length_range, Nat.succ_mul]
                omega
              · intro h0
                have h1b := hbd h0
                have hfin := hbd' (by rw [hdk]; exact h1b)
                rwa [hdk] at hfin

theorem snoc_perm_range (A B : List Nat) (i : Nat)
    (hin : (A ++ B).Perm (List.range i)) :
    (A ++ (B ++ [i])).Perm (List.range (i + 1)) := by
  rw [List.range_succ, ← List.append_assoc]
  exact hin.append_right [i]

theorem deal_community_ok : ∀ (n : Nat) (r r' : Room), deal_community n r = (r', none) →
    r'.deck = r.deck ∧ r'.deal_index = r.deal_index + n ∧ r'.players = r.players ∧
    ((allIdx r.transcript).Perm (List.range r.deal_index) →
      (allIdx r'.transcript).Perm (List.range r'.deal_index)) ∧
    (n ≠ 0 → r'.deal_index ≤ r.deck.length)
  | 0, r, r', h => by
      rw [deal_community] at h
      injection h with h1 h2
      subst h1
      exact ⟨rfl, by simp, rfl, fun hp => hp, fun h0 => absurd rfl h0⟩
  | n + 1, r, r', h => by
      rw [deal_community] at h
      cases hd : r.deck[r.deal_index]? with
      | none => simp [hd] at h
      | some card =>
          simp only [List.get?_eq_getElem?, hd] at h
          obtain ⟨hdk, hix, hpl, hpm, hbd⟩ := deal_community_ok n _ r' h
          rw [← List.get?_eq_getElem?] at hd
          obtain ⟨hlt, _⟩ := List.get?_eq_some.mp hd
          refine ⟨hdk, hix.trans (show r.deal_index + 1 + n = r.deal_index + (n + 1) by omega),
            hpl, ?_, ?_⟩
          · intro hin
            exact hpm (snoc_perm_range _ _ _ hin)
          · intro _
            cases n with
            | zero =>
                rw [hix]
                show r.deal_index + 1 + 0 ≤ r.deck.length
                omega
            | succ m =>
                exact hbd (Nat.succ_ne_zero m)

theorem flatten_map_nil : ∀ (ps : List Player),
    ((ps.map (fun p => (p.pid, ([] : List Nat)))).map (fun e => e.2)).flatten = ([] : List Nat)
  | [] => rfl
  | p :: ps => by simp [flatten_map_nil ps]

theorem deal_hole_ok (sha : String → List Nat) (fuel : Nat) (r r' : Room)
    (h : deal_hole sha fuel r = (r', none)) :
    r'.deck.Perm make_deck ∧ r'.deck.length = 52 ∧
    r'.players.length = r.players.length ∧ r'.community = r.community ∧
    r'.deal_index = (if r.variant = "TEXAS" then 2 else 4) * r.players.length ∧
    (allIdx r'.transcript).Perm (List.range r'.deal_index) ∧
    r'.deal_index ≤ 52 := by
  rw [deal_hole] at h
  cases hms : compute_master_seed sha r with
  | error e => simp [hms] at h
  | ok mp =>
      obtain ⟨mb, mh⟩ := mp
      simp only [hms] at h
      cases hsh : deterministic_shuffle fuel make_deck mb with
      | error e => simp [hsh] at h
      | ok deck =>
          simp only [hsh] at h
          have hperm := deterministic_shuffle_perm fuel make_deck mb deck hsh
          have hlen : deck.length = 52 := hperm.length_eq.trans (by decide)
          obtain ⟨hdk, hix, hpl, hcm, hpm, hbd⟩ := dealRounds_ok _ _ r' h
          have base : (allIdx
              (⟨r.variant, r.players.map (fun p => (p.pid, [])), []⟩ : Transcript)).Perm
              (List.range 0) := by
            simp [allIdx, flatten_map_nil]
          refine ⟨?_, ?_, ?_, hcm, ?_, hpm base, ?_⟩
          · rw [hdk]; exact hperm
          · rw [hdk]; exact hlen
          · exact hpl.trans (List.length_map _ _)
          · exact hix.trans (by simp)
          · have hfin : r'.deal_index ≤ deck.length := hbd (Nat.zero_le _)
            omega

/-- **C6** (transcript partition): after dealing hole cards round-by-round
in join order for the 2-hole variant and a full community
(flop 3 + turn 1 + river 1), the recorded transcript indices are exactly
`2k + 5` distinct integers in `[0, 52)` and the deal cursor equals
`2k + 5`, where `k` is the number of participants. -/
theorem c6_transcript_partition (sha : String → List Nat) (fuel : Nat) (r : Room)
    (hv : r.variant = "TEXAS") (h : (fullDeal sha fuel r).2 = none) :
    (allIdx (fullDeal sha fuel r).1.transcript).Perm
      (List.range (2 * r.players.length + 5)) ∧
    (fullDeal sha fuel r).1.deal_index = 2 * r.players.length + 5 ∧
    (allIdx (fullDeal sha fuel r).1.transcript).Nodup ∧
    (∀ i ∈ allIdx (fullDeal sha fuel r).1.transcript, i < 52) ∧
    (allIdx (fullDeal sha fuel r).1.transcript).length = 2 * r.players.length + 5 := by
  cases h1 : deal_hole sha fuel r with
  | mk r1 e1 =>
    cases e1 with
    | some e => simp [fullDeal, h1] at h
    | none =>
      cases h2 : deal_community 3 r1 with
      | mk r2 e2 =>
        cases e2 with
        | some e => simp [fullDeal, h1, h2] at h
        | none =>
          cases h3 : deal_community 1 r2 with
          | mk r3 e3 =>
            cases e3 with
            | some e => simp [fullDeal, h1, h2, h3] at h
            | none =>
              cases h4 : deal_community 1 r3 with
              | mk r4 e4 =>
                cases e4 with
                | some e => simp [fullDeal, h1, h2, h3, h4] at h
                | none =>
                  have hfd : fullDeal sha fuel r = (r4, none) := by
                    simp only [fullDeal, h1, h2, h3, h4]
                  rw [hfd]
                  obtain ⟨hp1, hl1, hk1, _, hi1, hperm1, hb1⟩ :=
                    deal_hole_ok sha fuel r r1 h1
                  obtain ⟨hdk2, hi2, _, hperm2, hb2⟩ := deal_community_ok 3 r1 r2 h2
                  obtain ⟨hdk3, hi3, _, hperm3, hb3⟩ := deal_community_ok 1 r2 r3 h3
                  obtain ⟨hdk4, hi4, _, hperm4, hb4⟩ := deal_community_ok 1 r3 r4 h4
                  have hidx1 : r1.deal_index = 2 * r.players.length := by
                    rw [hi1, hv]; simp
                  have hfinal : r4.deal_index = 2 * r.players.length + 5 := by omega
                  have hbound : r4.deal_index ≤ 52 := by
                    have := hb4 (by omega)
                    rw [hdk3, hdk2, hl1] at this
                    exact this
                  have hpermAll : (allIdx r4.transcript).Perm (List.range r4.deal_index) :=
                    hperm4 (hperm3 (hperm2 hperm1))
                  rw [hfinal] at hpermAll
                  refine ⟨hpermAll, hfinal, ?_, ?_, ?_⟩
                  · exact hpermAll.nodup_iff.mpr (List.nodup_range _)
                  · intro i hi
                    have := List.mem_range.mp (hpermAll.mem_iff.mp hi)
                    omega
                  · exact hpermAll.length_eq.trans (List.length_range _)

theorem c6_witness :
    (allIdx (fullDeal shaW 5 rT).1.transcript).Perm
      (List.range (2 * rT.players.length + 5)) ∧
    (fullDeal shaW 5 rT).1.deal_index = 2 * rT.players.length + 5 ∧
    (allIdx (fullDeal shaW 5 rT).1.transcript).Nodup ∧
    (∀ i ∈ allIdx (fullDeal shaW 5 rT).1.transcript, i < 52) ∧
    (allIdx (fullDeal shaW 5 rT).1.transcript).length = 2 * rT.players.length + 5 :=
  c6_transcript_partition shaW 5 rT (by decide) (by decide)

/-! ## The deck invariant across all operations -/

theorem dealOne_state : ∀ (r : Room) (m : Nat) (r' : Room) (e : Option PyErr),
    dealOne r m = (r', e) →
    r'.deck = r.deck ∧ (r.deal_index ≤ r.deck.length → r'.deal_index ≤ r.deck.length) := by
  intro r m r' e h
  rw [dealOne] at h
  cases hp : r.players[m]? with
  | none =>
      simp only [List.get?_eq_getElem?, hp] at h
      injection h with h1 h2
      subst h1
      exact ⟨rfl, fun hh => hh⟩
  | some p =>
      simp only [List.get?_eq_getElem?, hp] at h
      cases hd : r.deck[r.deal_index]? with
      | none =>
          simp only [hd] at h
          injection h with h1 h2
          subst h1
          exact ⟨rfl, fun hh => hh⟩
      | some card =>
          simp only [hd] at h
          cases hu : updAssoc p.pid r.deal_index r.transcript.holes with
          | none =>
              simp only [hu] at h
              injection h with h1 h2
              subst h1
              exact ⟨rfl, fun hh => hh⟩
          | some holes' =>
              simp only [hu] at h
              injection h with h1 h2
              subst h1
              refine ⟨rfl, fun _ => ?_⟩
              rw [← List.get?_eq_getElem?] at hd
              obtain ⟨hlt, _⟩ := List.get?_eq_some.mp hd
              show r.deal_index + 1 ≤ r.deck.length
              omega

theorem dealSeq_state : ∀ (ms : List Nat) (r r' : Room) (e : Option PyErr),
    dealSeq r ms = (r', e) →
    r'.deck = r.deck ∧ (r.deal_index ≤ r.deck.length → r'.deal_index ≤ r.deck.length)
  | [], r, r', e, h => by
      rw [dealSeq] at h
      injection h with h1 h2
      subst h1
      exact ⟨rfl, fun hh => hh⟩
  | m :: ms, r, r', e, h => by
      rw [dealSeq] at h
      cases h1 : dealOne r m with
      | mk r1 e1 =>
          rw [h1] at h
          obtain ⟨hdk, hbd⟩ := dealOne_state r m r1 e1 h1
          cases e1 with
          | none =>
              obtain ⟨hdk', hbd'⟩ := dealSeq_state ms r1 r' e h
              refine ⟨hdk'.trans hdk, fun h0 => ?_⟩
              have hfin := hbd' (by rw [hdk]; exact hbd h0)
              rwa [hdk] at hfin
          | some e2 =>
              injection h with h1' h2'
              subst h1'
              exact ⟨hdk, hbd⟩

theorem dealRounds_state : ∀ (n : Nat) (r r' : Room) (e : Option PyErr),
    dealRounds n r = (r', e) →
    r'.deck = r.deck ∧ (r.deal_index ≤ r.deck.length → r'.deal_index ≤ r.deck.length)
  | 0, r, r', e, h => by
      rw [dealRounds] at h
      injection h with h1 h2
      subst h1
      exact ⟨rfl, fun hh => hh⟩
  | n + 1, r, r', e, h => by
      rw [dealRounds] at h
      cases h1 : dealSeq r (List.range r.players.length) with
      | mk r1 e1 =>
          rw [h1] at h
          obtain ⟨hdk, hbd⟩ := dealSeq_state (List.range r.players.length) r r1 e1 h1
          cases e1 with
          | none =>
              obtain ⟨hdk', hbd'⟩ := dealRounds_state n r1 r' e h
              refine ⟨hdk'.trans hdk, fun h0 => ?_⟩
              have hfin := hbd' (by rw [hdk]; exact hbd h0)
              rwa [hdk] at hfin
          | some e2 =>
              injection h with h1' h2'
              subst h1'
              exact ⟨hdk, hbd⟩

theorem deal_community_state : ∀ (n : Nat) (r r' : Room) (e : Option PyErr),
    deal_community n r = (r', e) →
    r'.deck = r.deck ∧ (r.deal_index ≤ r.deck.length → r'.deal_index ≤ r.deck.length)
  | 0, r, r', e, h => by
      rw [deal_community] at h
      injection h with h1 h2
      subst h1
      exact ⟨rfl, fun hh => hh⟩
  | n + 1, r, r', e, h => by
      rw [deal_community] at h
      cases hd : r.deck[r.deal_index]? with
      | none =>
          simp only [List.get?_eq_getElem?, hd] at h
          injection h with h1 h2
          subst h1
          exact ⟨rfl, fun hh => hh⟩
      | some card =>
          simp only [List.get?_eq_getElem?, hd] at h
          obtain ⟨hdk, hbd⟩ := deal_community_state n _ r' e h
          rw [← List.get?_eq_getElem?] at hd
          obtain ⟨hlt, _⟩ := List.get?_eq_some.mp hd
          refine ⟨hdk, fun _ => ?_⟩
          have hfin := hbd (show r.deal_index + 1 ≤ r.deck.length by omega)
          exact hfin

theorem deal_community_inv (n : Nat) (r r' : Room) (e : Option PyErr)
    (h : deal_community n r = (r', e)) (hInv : DeckInv r) : DeckInv r' := by
  obtain ⟨hdk, hbd⟩ := deal_community_state n r r' e h
  exact ⟨by rw [hdk]; exact hbd hInv.1, by rw [hdk]; exact hInv.2⟩

theorem reset_hand_inv (r : Room) : DeckInv (reset_hand r) :=
  ⟨Nat.le_refl 0, Or.inl rfl⟩

theorem deal_hole_inv (sha : String → List Nat) (fuel : Nat) :
    ∀ (r r' : Room) (e : Option PyErr), deal_hole sha fuel r = (r', e) →
    DeckInv r → DeckInv r' := by
  intro r r' e h hInv
  rw [deal_hole] at h
  cases hms : compute_master_seed sha r with
  | error e' =>
      simp only [hms] at h
      injection h with h1 h2
      subst h1
      exact hInv
  | ok mp =>
      obtain ⟨mb, mh⟩ := mp
      simp only [hms] at h
      cases hsh : deterministic_shuffle fuel make_deck mb with
      | error e' =>
          simp only [hsh] at h
          injection h with h1 h2
          subst h1
          exact hInv
      | ok deck =>
          simp only [hsh] at h
          have hperm := deterministic_shuffle_perm fuel make_deck mb deck hsh
          obtain ⟨hdk, hbd⟩ := dealRounds_state _ _ r' e h
          have hdk' : r'.deck = deck := hdk
          constructor
          · have hb' : r'.deal_index ≤ deck.length := hbd (Nat.zero_le _)
            rw [hdk']
            exact hb'
          · right
            rw [hdk']
            exact ⟨hperm, (show make_deck.Nodup by decide).perm hperm.symm⟩

theorem handleMsg_inv (sha : String → List Nat) (fuel : Nat) (r : Room) (pid : String)
    (m : Msg) (hInv : DeckInv r) : DeckInv (handleMsg sha fuel r pid m).1 := by
  cases m with
  | join nm av => exact hInv
  | commit c =>
      simp only [handleMsg]
      split
      · exact hInv
      · split <;> exact hInv
  | reveal se sa =>
      simp only [handleMsg]
      split
      · exact hInv
      · split <;> exact hInv
  | start_hand v =>
      simp only [handleMsg]
      split
      · exact hInv
      · split
        · exact hInv
        · split
          · exact hInv
          · split
            · rename_i r2 e hdh
              exact deal_hole_inv sha fuel _ r2 (some e) hdh (reset_hand_inv _)
            · rename_i r2 hdh
              exact deal_hole_inv sha fuel _ r2 none hdh (reset_hand_inv _)
  | deal w =>
      simp only [handleMsg]
      split
      · exact hInv
      · split
        · exact hInv
        · split
          · cases hdc : deal_community 3 r with
            | mk rc ec =>
                have hc := deal_community_inv 3 r rc ec hdc hInv
                cases ec with
                | none => exact hc
                | some e => exact hc
          · split
            · cases hdc : deal_community 1 r with
              | mk rc ec =>
                  have hc := deal_community_inv 1 r rc ec hdc hInv
                  cases ec with
                  | none => exact hc
                  | some e => exact hc
            · split
              · cases hdc : deal_community 1 r with
                | mk rc ec =>
                    have hc := deal_community_inv 1 r rc ec hdc hInv
                    cases ec with
                    | none => exact hc
                    | some e => exact hc
              · exact hInv
  | new_hand =>
      simp only [handleMsg]
      split
      · exact hInv
      · split
        · rename_i r2 e hdh
          exact deal_hole_inv sha fuel _ r2 (some e) hdh (reset_hand_inv r)
        · rename_i r2 hdh
          exact deal_hole_inv sha fuel _ r2 none hdh (reset_hand_inv r)
  | audit =>
      simp only [handleMsg]
      split
      · exact hInv
      · exact hInv
  | other => exact hInv

theorem handleEvent_inv (sha : String → List Nat) (fuel : Nat) (r : Room) (ev : Event)
    (hInv : DeckInv r) : DeckInv (handleEvent sha fuel r ev).1 := by
  cases ev with
  | connect pid => exact hInv
  | message pid m =>
      simp only [handleEvent]
      cases hm : handleMsg sha fuel r pid m with
      | mk r1 o =>
          have h1 : DeckInv r1 := by
            have hh := handleMsg_inv sha fuel r pid m hInv
            rwa [hm] at hh
          cases o with
          | ok => exact h1
          | rejected s => exact h1
          | crashed e => exact h1
  | disconnect pid =>
      simp only [handleEvent, disconnectPlayer]
      split
      · split <;> exact hInv
      · exact hInv
  | badFrame pid => exact hInv

theorem runEvents_reachable (sha : String → List Nat) (fuel : Nat) :
    ∀ (es : List Event) (r : Room), Reachable sha fuel r →
      Reachable sha fuel (runEvents sha fuel r es)
  | [], _, h => h
  | e :: es, r, h => runEvents_reachable sha fuel es _ (Reachable.step e h)

/-- **C7** (room deck invariant): in every reachable room state the deal
cursor never exceeds the deck length, and the deck is either empty or a
permutation of exactly the 52 canonical cards with no duplicates; every
event (connect/join, commit, reveal, start_hand, deal, new_hand, audit,
disconnect, and the crash paths) preserves this. -/
theorem c7_deck_invariant (sha : String → List Nat) (fuel : Nat) (r : Room)
    (h : Reachable sha fuel r) :
    r.deal_index ≤ r.deck.length ∧
    (r.deck = [] ∨ (r.deck.Perm make_deck ∧ r.deck.Nodup)) := by
  have hInv : DeckInv r := by
    induction h with
    | init code => exact ⟨Nat.le_refl 0, Or.inl rfl⟩
    | step ev hr ih => exact handleEvent_inv sha fuel _ ev ih
  exact hInv

theorem c7_witness :
    r10.deal_index ≤ r10.deck.length ∧
    (r10.deck = [] ∨ (r10.deck.Perm make_deck ∧ r10.deck.Nodup)) :=
  c7_deck_invariant shaW 5 r10
    (runEvents_reachable shaW 5 _ (room0 "R") (Reachable.init "R"))

/-! ## Error atomicity of the handler's explicit rejections -/

theorem string_append_ne_empty (a b : String) (hb : b ≠ "") : a ++ b ≠ "" := fun h => by
  apply hb
  apply stringData_inj
  have hd := congrArg String.data h
  rw [String.data_append] at hd
  exact (List.append_eq_nil.mp hd).2

theorem firstUnready_ne : ∀ (l : List Player) (s : String), firstUnready l = some s → s ≠ ""
  | [], s, h => by simp [firstUnready] at h
  | p :: ps, s, h => by
      rw [firstUnready] at h
      by_cases h1 : p.commitment.getD "" = ""
      · rw [if_pos h1] at h
        injection h with h
        subst h
        exact string_append_ne_empty _ _ (by decide)
      · rw [if_neg h1] at h
        by_cases h2 : p.seed.getD "" = "" ∨ p.salt.getD "" = ""
        · rw [if_pos h2] at h
          injection h with h
          subst h
          exact string_append_ne_empty _ _ (by decide)
        · rw [if_neg h2] at h
          exact firstUnready_ne ps s h

theorem handleMsg_rejected (sha : String → List Nat) (fuel : Nat) (r : Room) (pid : String)
    (m : Msg) (r1 : Room) (s : String)
    (h : handleMsg sha fuel r pid m = (r1, .rejected s)) :
    r1.stage = r.stage ∧ r1.deck = r.deck ∧ r1.deal_index = r.deal_index ∧
    r1.transcript = r.transcript ∧ r1.players = r.players ∧
    r1.master_seed_hex = r.master_seed_hex ∧ s ≠ "" := by
  cases m with
  | join nm av => simp [handleMsg] at h
  | commit c =>
      simp only [handleMsg] at h
      split at h
      · injection h with h1 h2
        injection h2 with h2
        subst h1; subst h2
        exact ⟨rfl, rfl, rfl, rfl, rfl, rfl, by decide⟩
      · injection h with h1 h2
        exact Outcome.noConfusion h2
  | reveal se sa =>
      simp only [handleMsg] at h
      split at h
      · injection h with h1 h2
        injection h2 with h2
        subst h1; subst h2
        exact ⟨rfl, rfl, rfl, rfl, rfl, rfl, by decide⟩
      · split at h
        · injection h with h1 h2
          injection h2 with h2
          subst h1; subst h2
          exact ⟨rfl, rfl, rfl, rfl, rfl, rfl, by decide⟩
        · injection h with h1 h2
          exact Outcome.noConfusion h2
  | start_hand v =>
      simp only [handleMsg] at h
      split at h
      · injection h with h1 h2
        injection h2 with h2
        subst h1; subst h2
        exact ⟨rfl, rfl, rfl, rfl, rfl, rfl, by decide⟩
      · split at h
        · injection h with h1 h2
          injection h2 with h2
          subst h1; subst h2
          exact ⟨rfl, rfl, rfl, rfl, rfl, rfl, by decide⟩
        · split at h
          · rename_i notice hfu
            injection h with h1 h2
            injection h2 with h2
            subst h1; subst h2
            exact ⟨rfl, rfl, rfl, rfl, rfl, rfl, firstUnready_ne _ _ hfu⟩
          · split at h
            · injection h with h1 h2
              exact Outcome.noConfusion h2
            · injection h with h1 h2
              exact Outcome.noConfusion h2
  | deal w =>
      simp only [handleMsg] at h
      split at h
      · injection h with h1 h2
        injection h2 with h2
        subst h1; subst h2
        exact ⟨rfl, rfl, rfl, rfl, rfl, rfl, by decide⟩
      · split at h
        · injection h with h1 h2
          injection h2 with h2
          subst h1; subst h2
          exact ⟨rfl, rfl, rfl, rfl, rfl, rfl, by decide⟩
        · split at h
          · split at h
            · injection h with h1 h2
              exact Outcome.noConfusion h2
            · injection h with h1 h2
              exact Outcome.noConfusion h2
          · split at h
            · split at h
              · injection h with h1 h2
                exact Outcome.noConfusion h2
              · injection h with h1 h2
                exact Outcome.noConfusion h2
            · split at h
              · split at h
                · injection h with h1 h2
                  exact Outcome.noConfusion h2
                · injection h with h1 h2
                  exact Outcome.noConfusion h2
              · injection h with h1 h2
                injection h2 with h2
                subst h1; subst h2
                exact ⟨rfl, rfl, rfl, rfl, rfl, rfl, by decide⟩
  | new_hand =>
      simp only [handleMsg] at h
      split at h
      · injection h with h1 h2
        injection h2 with h2
        subst h1; subst h2
        exact ⟨rfl, rfl, rfl, rfl, rfl, rfl, by decide⟩
      · split at h
        · injection h with h1 h2
          exact Outcome.noConfusion h2
        · injection h with h1 h2
          exact Outcome.noConfusion h2
  | audit =>
      simp only [handleMsg] at h
      split at h
      · injection h with h1 h2
        injection h2 with h2
        subst h1; subst h2
        exact ⟨rfl, rfl, rfl, rfl, rfl, rfl, by decide⟩
      · injection h with h1 h2
        exact Outcome.noConfusion h2
  | other =>
      simp only [handleMsg] at h
      injection h with h1 h2
      injection h2 with h2
      subst h1; subst h2
      exact ⟨rfl, rfl, rfl, rfl, rfl, rfl, by decide⟩

/-- **C8** as amended: every inbound action whose handling is rejected by
one of the handler's explicit checks leaves stage, deck, deal cursor,
transcript, players and master seed unchanged, and the offending
participant receives a non-empty human-readable notice.  (The crash
paths — e.g. `new_hand` with a missing reveal — are exempt: they mutate
state and remove the sender, see the counterexample.) -/
theorem c8_rejected_atomic (sha : String → List Nat) (fuel : Nat) (r : Room) (ev : Event)
    (r1 : Room) (s : String) (h : handleEvent sha fuel r ev = (r1, .rejected s)) :
    r1.stage = r.stage ∧ r1.deck = r.deck ∧ r1.deal_index = r.deal_index ∧
    r1.transcript = r.transcript ∧ r1.players = r.players ∧
    r1.master_seed_hex = r.master_seed_hex ∧ s ≠ "" := by
  cases ev with
  | connect pid =>
      rw [handleEvent] at h
      injection h with h1 h2
      exact Outcome.noConfusion h2
  | message pid m =>
      simp only [handleEvent] at h
      cases hm : handleMsg sha fuel r pid m with
      | mk rm o =>
          rw [hm] at h
          cases o with
          | crashed e =>
              injection h with h1 h2
              exact Outcome.noConfusion h2
          | ok =>
              injection h with h1 h2
              exact Outcome.noConfusion h2
          | rejected s' =>
              injection h with h1 h2
              injection h2 with h2
              subst h1; subst h2
              exact handleMsg_rejected sha fuel r pid m _ _ hm
  | disconnect pid =>
      rw [handleEvent] at h
      injection h with h1 h2
      exact Outcome.noConfusion h2
  | badFrame pid =>
      rw [handleEvent] at h
      injection h with h1 h2
      exact Outcome.noConfusion h2

theorem c8_witness :
    (room0 "R").stage = (room0 "R").stage ∧ (room0 "R").deck = (room0 "R").deck ∧
    (room0 "R").deal_index = (room0 "R").deal_index ∧
    (room0 "R").transcript = (room0 "R").transcript ∧
    (room0 "R").players = (room0 "R").players ∧
    (room0 "R").master_seed_hex = (room0 "R").master_seed_hex ∧
    "Unknown message." ≠ "" :=
  c8_rejected_atomic shaW 1 (room0 "R") (.message "A" .other) (room0 "R")
    "Unknown message." (by decide)

/-- **C8**, counterexample to the claim as stated: a host's `new_hand`
issued while participants lack reveals is a failing action (it raises and
is caught by the generic exception handler), yet it clears the hand state,
forces the stage to `HAND`, and removes the issuing host from the room —
fatal to that participant's connection. -/
theorem c8_counterexample :
    (handleEvent shaW 5 rAB (.message "A" .new_hand)).2 =
      .crashed .incompleteReveal ∧
    rAB.players.map Player.pid = ["A", "B"] ∧
    (handleEvent shaW 5 rAB (.message "A" .new_hand)).1.players.map Player.pid = ["B"] ∧
    rAB.stage = "LOBBY" ∧
    (handleEvent shaW 5 rAB (.message "A" .new_hand)).1.stage = "HAND" := by
  refine ⟨by decide, by decide, by decide, by decide, by decide⟩

/-! ## Host assignment on departures -/

theorem popPlayer_hosts_le (r : Room) (pid : String) :
    countHosts (popPlayer r pid) ≤ countHosts r := by
  simp only [countHosts, popPlayer]
  exact List.Sublist.length_le (List.Sublist.filter _ (List.filter_sublist _))

/-- **C9**, counterexample to the claim as stated: after two participants
connect and the host's connection then hits the generic exception handler
(e.g. a malformed frame), the host is popped with no re-assignment — a
reachable, non-empty room with zero hosts. -/
theorem c9_counterexample :
    Reachable shaW 5 rNoHost ∧ rNoHost.players ≠ [] ∧ countHosts rNoHost = 0 := by
  refine ⟨?_, by decide, by decide⟩
  exact Reachable.step (.badFrame "A")
    (Reachable.step (.connect "B") (Reachable.step (.connect "A") (Reachable.init "R")))

/-- **C9** as amended: the `WebSocketDisconnect` path does re-establish the
single-host invariant — if a room with at most one host loses a
participant and remains non-empty, it has exactly one host afterwards, and
when no host remains after the pop the first remaining participant in join
order is promoted.  (The generic-exception removal path performs no such
re-assignment, see the counterexample.) -/
theorem c9_disconnect_host (sha : String → List Nat) (fuel : Nat) (r : Room) (pid : String)
    (h : countHosts r ≤ 1) :
    ((handleEvent sha fuel r (.disconnect pid)).1.players ≠ [] →
      countHosts (handleEvent sha fuel r (.disconnect pid)).1 = 1) ∧
    (∀ q qs, (popPlayer r pid).players = q :: qs →
      (popPlayer r pid).players.any (fun p => p.is_host) = false →
      (handleEvent sha fuel r (.disconnect pid)).1.players =
        { q with is_host := true } :: qs) := by
  simp only [handleEvent, disconnectPlayer]
  constructor
  · intro hne
    by_cases hany : (popPlayer r pid).players.any (fun p => p.is_host) = true
    · rw [if_neg (by simp [hany])] at hne ⊢
      obtain ⟨x, hx, hhx⟩ := List.any_eq_true.mp hany
      have h1 : 0 < countHosts (popPlayer r pid) := by
        have hmem : x ∈ (popPlayer r pid).players.filter (fun p => p.is_host) :=
          List.mem_filter.mpr ⟨hx, hhx⟩
        exact List.length_pos.mpr (List.ne_nil_of_mem hmem)
      have h2 := popPlayer_hosts_le r pid
      omega
    · have hanyF : (popPlayer r pid).players.any (fun p => p.is_host) = false := by
        simpa using hany
      rw [if_pos (by simp [hanyF])] at hne ⊢
      cases hps : (popPlayer r pid).players with
      | nil => rw [hps] at hne; exact absurd hps hne
      | cons q qs =>
          rw [hps] at hanyF
          have hall := List.any_eq_false.mp hanyF
          have hfilter : qs.filter (fun p => p.is_host) = [] := by
            rw [List.filter_eq_nil_iff]
            intro x hx
            exact hall x (List.mem_cons_of_mem q hx)
          simp [countHosts, List.filter_cons, hfilter]
  · intro q qs hps hany
    rw [if_pos (by simp [hany])]
    rw [hps]

theorem c9_witness :
    ((handleEvent shaW 5 rAB (.disconnect "A")).1.players ≠ [] →
      countHosts (handleEvent shaW 5 rAB (.disconnect "A")).1 = 1) ∧
    (∀ q qs, (popPlayer rAB "A").players = q :: qs →
      (popPlayer rAB "A").players.any (fun p => p.is_host) = false →
      (handleEvent shaW 5 rAB (.disconnect "A")).1.players =
        { q with is_host := true } :: qs) :=
  c9_disconnect_host shaW 5 rAB "A" (by decide)

/-! ## Commit does not clear reveals, and start_hand checks only presence -/

theorem updatePlayer_commit_proj (r : Room) (pid : String) (cs : String) :
    (updatePlayer r pid (fun p => { p with commitment := some cs })).players.map
        (fun p => (p.pid, p.seed, p.salt)) =
      r.players.map (fun p => (p.pid, p.seed, p.salt)) := by
  simp only [updatePlayer, List.map_map]
  apply List.map_congr_left
  intro q _
  by_cases hq : q.pid = pid
  · simp [hq]
  · simp [hq]

/-- **C10** (implicit): a commit message never changes any participant's
stored seed or salt (a successful one overwrites only the commitment);
`start_hand` checks only the presence of commitments and of seed/salt and
never re-checks the hash binding — so a state is reachable in which
`start_hand` succeeds while a participant's stored seed/salt no longer
hash to that participant's live commitment. -/
theorem c10_commit_keeps_reveals :
    (∀ (sha : String → List Nat) (fuel : Nat) (r : Room) (pid : String) (c : Option String),
       (handleEvent sha fuel r (.message pid (.commit c))).1.players.map
           (fun p => (p.pid, p.seed, p.salt)) =
         r.players.map (fun p => (p.pid, p.seed, p.salt))) ∧
    Reachable shaW 5 r10 ∧
    (∃ p ∈ r10.players, p.pid = "A" ∧ p.seed = some "s1" ∧ p.salt = some "t1" ∧
       p.commitment = some o64 ∧
       sha256_hex shaW (p.seed.getD "" ++ "|" ++ p.salt.getD "") ≠ o64) ∧
    (handleEvent shaW 5 r10 (.message "A" (.start_hand (some "TEXAS")))).2 = .ok := by
  refine ⟨?_, runEvents_reachable shaW 5 _ (room0 "R") (Reachable.init "R"),
    by decide, by decide⟩
  intro sha fuel r pid c
  cases hm : handleMsg sha fuel r pid (.commit c) with
  | mk rm o =>
      have hpl : rm.players.map (fun p => (p.pid, p.seed, p.salt)) =
          r.players.map (fun p => (p.pid, p.seed, p.salt)) ∧
          ∀ e : PyErr, o ≠ .crashed e := by
        simp only [handleMsg] at hm
        split at hm
        · injection hm with h1 h2
          subst h1
          exact ⟨rfl, by intro e; rw [← h2]; intro hcon; exact Outcome.noConfusion hcon⟩
        · injection hm with h1 h2
          subst h1
          refine ⟨?_, by intro e; rw [← h2]; intro hcon; exact Outcome.noConfusion hcon⟩
          split
          · exact updatePlayer_commit_proj r pid (c.getD "")
          · exact updatePlayer_commit_proj r pid (c.getD "")
      simp only [handleEvent, hm]
      cases o with
      | crashed e => exact absurd rfl (hpl.2 e)
      | ok => exact hpl.1
      | rejected s => exact hpl.1
